import Mathlib

/-!
Shallow embedding of the emycin certainty-factor inference engine
(`working.py`) and verification of its specification claims.

Modelling conventions:
* Python floats are modelled as exact rationals (`ℚ`).  All certainty
  constants in the source (`1.0`, `-1.0`, `0.0`, `0.2`, rule attenuations
  such as `0.9`) are decimal literals, embedded as the corresponding
  rationals.
* Python dicts are modelled as insertion-ordered association lists;
  `dict.setdefault` appends a fresh binding at the end, assignment
  `d[k] = v` replaces the binding in place.
* Python sets (`known`, `asked`) are modelled as lists used through
  membership and insert-if-absent.
* Exceptions and out-of-model situations (KeyError on an unbound context,
  reading past the end of the interaction stream, unbounded recursion)
  are modelled with `Option`: `none` means the Python program would have
  raised or diverged.  Recursive resolution (`find_out`) is fuelled.
* Division on `ℚ` is total (`x / 0 = 0`) whereas Python raises
  `ZeroDivisionError`; the spots where this matters are commented.
-/

/-- Python `CF.true` (1.0). -/
def cfTrueVal : ℚ := 1

/-- Python `CF.false` (-1.0). -/
def cfFalseVal : ℚ := -1

/-- Python `CF.unknown` (0.0). -/
def cfUnknownVal : ℚ := 0

/-- Python `CF.cutoff` (0.2). -/
def cfCutoffVal : ℚ := 1/5

/-- `cf_or(a, b)`: the OR of two certainty factors.  In the mixed-sign
branch ℚ-division is total, so the Python `ZeroDivisionError` at
`min (|a|) (|b|) = 1` shows up here as a result of `0`. -/
def cfOr (a b : ℚ) : ℚ :=
  if 0 < a ∧ 0 < b then a + b - a * b
  else if a < 0 ∧ b < 0 then a + b + a * b
  else (a + b) / (1 - min |a| |b|)

/-- `cf_and(a, b)`: the AND of two certainty factors. -/
def cfAnd (a b : ℚ) : ℚ := min a b

/-- `is_cf(x)`: is `x` a valid certainty factor (`CF.false ≤ x ≤ CF.true`)? -/
def isCf (x : ℚ) : Bool := decide (cfFalseVal ≤ x) && decide (x ≤ cfTrueVal)

/-- `cf_true(x)`: `is_cf(x) and x > CF.cutoff`. -/
def cfTrueB (x : ℚ) : Bool := isCf x && decide (cfCutoffVal < x)

/-- `cf_false(x)`: `is_cf(x) and x < (CF.cutoff - 1)`. -/
def cfFalseB (x : ℚ) : Bool := isCf x && decide (x < cfCutoffVal - 1)

/-- Values manipulated by the engine: Python strings, ints and booleans
(the value kinds produced by the repository's parameter converters). -/
inductive PyVal where
  | str (s : String)
  | int (n : Int)
  | bool (b : Bool)
deriving DecidableEq

/-- Rendering of a value, as Python `%s` would produce it. -/
def PyVal.render : PyVal → String
  | .str s => s
  | .int n => toString n
  | .bool b => if b then "True" else "False"

/-- An instance identifier: `(context name, sequence number)`. -/
abbrev Inst := String × Nat

/-- A relational operator of a condition.  Python passes first-class
functions (which carry a `__name__`); we carry the predicate and the
name used by `print_condition`. -/
structure Op where
  fn : PyVal → PyVal → Bool
  name : String

/-- Python `eq` from the repository (`x == y`). -/
def eqOp : Op := ⟨fun a b => decide (a = b), "eq"⟩

/-- A `≥` operator on integer values, as used by the spec's Scenario 1
rule `(x, c, ≥, 10)`. -/
def geOp : Op :=
  ⟨fun a b =>
    match a, b with
    | .int m, .int n => decide (n ≤ m)
    | _, _ => false, "ge"⟩

/-- The second slot of a raw condition: a context name before binding;
after `print_why` clones a rule with bound premises it can also be an
instance (Python just stores either a `str` or a tuple there). -/
inductive CtxRef where
  | name (s : String)
  | inst (i : Inst)

/-- A condition tuple `(param, ctx-or-inst, op, val)`. -/
structure Cond where
  param : String
  ref : CtxRef
  op : Op
  val : PyVal

/-- A bound condition: the context slot replaced by a concrete instance. -/
structure BCond where
  param : String
  inst : Inst
  op : Op
  val : PyVal

/-! ## Association lists (the model of Python dicts) -/

/-- Lookup in an insertion-ordered association list (Python `d[k]` /
`k in d`). -/
def alookup {α β : Type} [DecidableEq α] : List (α × β) → α → Option β
  | [], _ => none
  | (k, v) :: t, k' => if k = k' then some v else alookup t k'

/-- Python `d[k] = v`: replace in place, or append a new binding. -/
def aset {α β : Type} [DecidableEq α] : List (α × β) → α → β → List (α × β)
  | [], k, v => [(k, v)]
  | (k', v') :: t, k, v =>
      if k' = k then (k, v) :: t else (k', v') :: aset t k v

/-- Python `d.setdefault(k, d0)`: return the existing value, or append the
default and return it. -/
def asetdefault {α β : Type} [DecidableEq α] (l : List (α × β)) (k : α) (d : β) :
    β × List (α × β) :=
  match alookup l k with
  | some v => (v, l)
  | none => (d, l ++ [(k, d)])

/-- The inner value→CF mapping of one fact-store entry. -/
abbrev Vals := List (PyVal × ℚ)

/-- The fact store: `(param, inst)` → value→CF mapping. -/
abbrev Values := List ((String × Inst) × Vals)

/-- `get_vals(values, param, inst)`: `values.setdefault((param, inst), {})`. -/
def getVals (kv : Values) (p : String) (i : Inst) : Vals × Values :=
  asetdefault kv (p, i) []

/-- Pure read of one entry's value map (empty when the entry is absent).
An absent entry and an entry holding `{}` are indistinguishable to every
read in the engine. -/
def lookupVals (kv : Values) (p : String) (i : Inst) : Vals :=
  (alookup kv (p, i)).getD []

/-- Pure read of one stored certainty factor (`CF.unknown` when absent). -/
def valueCf (kv : Values) (p : String) (i : Inst) (v : PyVal) : ℚ :=
  (alookup (lookupVals kv p i) v).getD 0

/-- `get_cf(values, param, inst, val)`, with its two `setdefault`
side effects made explicit. -/
def getCf (kv : Values) (p : String) (i : Inst) (v : PyVal) : ℚ × Values :=
  let (vals, kv) := getVals kv p i
  let (existing, vals) := asetdefault vals v (0 : ℚ)
  (existing, aset kv (p, i) vals)

/-- `update_cf(values, param, inst, val, cf)`: replace the stored CF with
`cf_or(existing, cf)`. -/
def updateCf (kv : Values) (p : String) (i : Inst) (v : PyVal) (cf : ℚ) : Values :=
  let (existing, kv) := getCf kv p i v
  let updated := cfOr existing cf
  let (vals, kv) := getVals kv p i
  aset kv (p, i) (aset vals v updated)

/-! ## Flat view of the fact store -/

/-- Two stores whose every `(param, inst)` entry reads the same value map
(an absent entry reading as the empty map).  All engine reads factor
through `lookupVals`, so related stores are observationally equal. -/
def entriesEq (kv kv' : Values) : Prop :=
  ∀ p i, lookupVals kv p i = lookupVals kv' p i

/-! ## Knowledge-base data model -/

/-- A typed scalar converter (`Parameter.cls`).  Python stores a class,
which both converts (possibly raising, modelled by `Option`) and carries a
`__name__` used by `type_string`. -/
structure Converter where
  fn : String → Option PyVal
  name : String

/-- Python builtin `int` used as a converter (raises on non-integers). -/
def intCls : Converter := ⟨fun s => (s.toInt?).map PyVal.int, "int"⟩

/-- Python builtin `str` used as a converter (never raises). -/
def strCls : Converter := ⟨fun s => some (PyVal.str s), "str"⟩

/-- The repository's `boolean` converter (`True`/`False`, else raises). -/
def booleanCls : Converter :=
  ⟨fun s =>
    if s = "True" then some (PyVal.bool true)
    else if s = "False" then some (PyVal.bool false)
    else none, "boolean"⟩

/-- `Parameter`. -/
structure Param where
  name : String
  ctx : Option String
  enum : Option (List String)
  cls : Option Converter
  askFirst : Bool

/-- `Parameter.type_string`.  When both `cls` and `enum` are `None`,
Python's `', '.join(list(None))` raises: modelled as `none`. -/
def Param.typeString (p : Param) : Option String :=
  match p.cls with
  | some c => some c.name
  | none => (p.enum).map (fun e => "(" ++ String.intercalate ", " e ++ ")")

/-- `Parameter.from_string`: convert through `cls` if present, otherwise
accept a member of a non-empty `enum`; every failure (`ValueError`) is
`none`. -/
def Param.fromString (p : Param) (val : String) : Option PyVal :=
  match p.cls with
  | some c => c.fn val
  | none =>
      match p.enum with
      | some e => if ¬ e = [] ∧ val ∈ e then some (PyVal.str val) else none
      | none => none

/-- `Context` (with its mutable per-context instance counter). -/
structure Context where
  name : String
  initialData : List String
  goals : List String
  count : Nat

/-- `Rule`: number, premises, conclusions, attenuation. -/
structure Rule where
  num : Int
  cf : ℚ
  rawPremises : List Cond
  rawConclusions : List Cond

/-- `Rule._bind_cond`: substitute `instances[ctx]` for the context slot;
a missing key (`KeyError`) is `none`.  An already-bound slot (a tuple) can
never be a key of the name-keyed `instances` dict. -/
def bindCond (instances : List (String × Inst)) (c : Cond) : Option BCond :=
  match c.ref with
  | .name n => (alookup instances n).map (fun i => ⟨c.param, i, c.op, c.val⟩)
  | .inst _ => none

/-- `Rule.premises(instances)`. -/
def Rule.premises (r : Rule) (instances : List (String × Inst)) : Option (List BCond) :=
  r.rawPremises.mapM (bindCond instances)

/-- `Rule.conclusions(instances)`. -/
def Rule.conclusions (r : Rule) (instances : List (String × Inst)) : Option (List BCond) :=
  r.rawConclusions.mapM (bindCond instances)

/-- `eval_condition` without the resolution hook: the plain arithmetic sum
of the CFs of every recorded value satisfying the condition's operator. -/
def evalCondition (c : BCond) (vals : Vals) : ℚ :=
  ((vals.filter (fun vq => c.op.fn vq.1 c.val)).map (fun vq => vq.2)).sum

/-- `print_condition`. -/
def printCondition (c : Cond) : String :=
  c.param ++ " " ++ (match c.ref with | .name s => s | .inst i => i.1) ++ " "
    ++ c.op.name ++ " " ++ c.val.render

/-- Rebuild a raw condition from a bound one (what `print_why` stores in a
cloned rule's premises). -/
def unbind (b : BCond) : Cond := ⟨b.param, .inst b.inst, b.op, b.val⟩

/-- `print_condition` on a bound condition. -/
def printBCond (b : BCond) : String := printCondition (unbind b)

/-- `Rule.__str__`.  Display only (the spec scopes textual rendering out);
the attenuation is rendered with `toString` instead of `%f`. -/
def Rule.render (r : Rule) : String :=
  "RULE " ++ toString r.num ++ "\nIF\n\t"
    ++ String.intercalate "\n\t" (r.rawPremises.map printCondition)
    ++ "\nTHEN " ++ toString r.cf ++ "\n\t"
    ++ String.intercalate "\n\t" (r.rawConclusions.map printCondition)

/-- The `current_rule` trace slot: Python stores `None`, the strings
`'initial'` / `'goal'`, or a `Rule`. -/
inductive CurRule where
  | initialS
  | goalS
  | rul (r : Rule)
  | pynone

/-! ## Shell state -/

/-- The result snapshot for one instance: goal parameter → value map. -/
abbrev ResultMap := List (String × Vals)

/-- The mapping returned by `execute`. -/
abbrev Results := List (Inst × ResultMap)

/-- The mutable state of a `Shell`, plus the interaction port modelled as
the list of pending responses (`input`) and the transcript of `write`
calls (`output`).  `read`'s prompt strings are consumed by the port and
are not recorded. -/
structure ShellState where
  rules : List (String × List Rule)
  contexts : List (String × Context)
  params : List (String × Param)
  known : List (String × Inst)
  asked : List (String × Inst)
  knownValues : Values
  currentInst : Option Inst
  instances : List (String × Inst)
  currentRule : CurRule
  input : List String
  output : List String

/-- `Shell.write`. -/
def writeLine (l : String) (s : ShellState) : ShellState :=
  { s with output := s.output ++ [l] }

/-- `Shell._set_current_rule`. -/
def setCurrentRule (c : CurRule) (s : ShellState) : ShellState :=
  { s with currentRule := c }

/-- `Shell.get_param`: lookup with a default bare `Parameter(name)`.
Python's `setdefault` also inserts the default; the insertion is invisible
to every later lookup, so the pure read is observationally equal. -/
def getParam (s : ShellState) (name : String) : Param :=
  (alookup s.params name).getD
    { name := name, ctx := none, enum := none, cls := none, askFirst := false }

/-- `Shell.get_rules`: lookup with default `[]` (same remark on the
invisible `setdefault` insertion). -/
def getRules (s : ShellState) (param : String) : List Rule :=
  (alookup s.rules param).getD []

/-- `Shell.define_rule`: index the rule under each concluded parameter, in
declaration order. -/
def defineRule (r : Rule) (s : ShellState) : ShellState :=
  r.rawConclusions.foldl
    (fun s c => { s with rules := aset s.rules c.param (getRules s c.param ++ [r]) }) s

/-- `Shell.define_context`. -/
def defineContext (c : Context) (s : ShellState) : ShellState :=
  { s with contexts := aset s.contexts c.name c }

/-- `Shell.define_param`. -/
def defineParam (p : Param) (s : ShellState) : ShellState :=
  { s with params := aset s.params p.name p }

/-- Python `set.add`. -/
def sinsert (x : String × Inst) (l : List (String × Inst)) : List (String × Inst) :=
  if x ∈ l then l else l ++ [x]

/-! ## Rule engine -/

/-- The caller-supplied missing-value resolution hook (`find_out`). -/
abbrev Hook := String → Inst → ShellState → Option (ShellState × Bool)

/-- The caller-supplied rule-selection observer (`track_rules`). -/
abbrev Track := Rule → ShellState → ShellState

/-- Run the optional hook, keeping its state and discarding its boolean
(as `eval_condition` does). -/
def runHook (hook : Option Hook) (p : String) (i : Inst) (s : ShellState) :
    Option ShellState :=
  match hook with
  | none => some s
  | some h => (h p i s).map (fun r => r.1)

/-- First pass of `Rule.applicable`: evaluate each premise against the
facts already known (no hook); stop (flag `true`) at the first premise
whose certainty is `cf_false`.  `get_vals` lazily inserts empty entries
along the way. -/
def pass1 : List BCond → Values → Values × Bool
  | [], kv => (kv, false)
  | c :: cs, kv =>
      let r := getVals kv c.param c.inst
      if cfFalseB (evalCondition c r.1) then (r.2, true) else pass1 cs r.2

/-- Second pass of `Rule.applicable`.  In Python `eval_condition` receives
the inner dict fetched *before* the hook runs, but the hook's `update_cf`
mutates that same dict object in place, so the summation sees the
post-hook contents; modelled by re-reading the entry after the hook. -/
def pass2 (hook : Option Hook) : List BCond → ℚ → ShellState → Option (ShellState × ℚ)
  | [], total, s => some (s, total)
  | c :: cs, total, s =>
      let r := getVals s.knownValues c.param c.inst
      match runHook hook c.param c.inst { s with knownValues := r.2 } with
      | none => none
      | some s1 =>
          let cf := evalCondition c (lookupVals s1.knownValues c.param c.inst)
          let total1 := cfAnd total cf
          if cfTrueB total1 then pass2 hook cs total1 s1 else some (s1, cfFalseVal)

/-- `Rule.applicable`.  (Python binds the premises twice — once per pass —
with identical results, since `instances` does not change in between.) -/
def applicable (hook : Option Hook) (r : Rule) (s : ShellState) :
    Option (ShellState × ℚ) :=
  match r.premises s.instances with
  | none => none
  | some prems =>
      let p1 := pass1 prems s.knownValues
      if p1.2 then some ({ s with knownValues := p1.1 }, cfFalseVal)
      else pass2 hook prems cfTrueVal { s with knownValues := p1.1 }

/-- Run the optional rule-selection observer. -/
def runTrack (track : Option Track) (r : Rule) (s : ShellState) : ShellState :=
  match track with
  | none => s
  | some t => t r s

/-- `Rule.apply`: notify the observer, test applicability, and on an
effective certainty that passes `cf_true` accumulate every conclusion. -/
def Rule.apply (hook : Option Hook) (track : Option Track) (r : Rule)
    (s : ShellState) : Option (ShellState × Bool) :=
  let s0 := runTrack track r s
  match applicable hook r s0 with
  | none => none
  | some (s1, acf) =>
      let cf := r.cf * acf
      if cfTrueB cf then
        match r.conclusions s1.instances with
        | none => none
        | some concls =>
            let kv2 := concls.foldl
              (fun kv c => updateCf kv c.param c.inst c.val cf) s1.knownValues
            some ({ s1 with knownValues := kv2 }, true)
      else some (s1, false)

/-- The list comprehension inside `use_rules`: apply every rule in order
and collect each outcome. -/
def applyAll (hook : Option Hook) (track : Option Track) :
    List Rule → ShellState → Option (ShellState × List Bool)
  | [], s => some (s, [])
  | r :: rs, s =>
      match Rule.apply hook track r s with
      | none => none
      | some (s1, b) =>
          match applyAll hook track rs s1 with
          | none => none
          | some (s2, bs) => some (s2, b :: bs)

/-- `use_rules`: `any([rule.apply(...) for rule in rules])` — note the
comprehension is fully evaluated before `any` runs. -/
def useRules (hook : Option Hook) (track : Option Track) (rules : List Rule)
    (s : ShellState) : Option (ShellState × Bool) :=
  (applyAll hook track rules s).map (fun p => (p.1, p.2.any id))

/-! ## Interaction port parsing -/

/-- Modelled from the spec: the certainty token of a reply pair is "parsed
as a floating-point token" by Python's builtin `float`, which is not
repository code.  Modelled as an exact decimal parser (optional sign,
decimal digits, optional fractional part). -/
def parseFloat (s : String) : Option ℚ :=
  let sgn : ℚ := if s.startsWith "-" then -1 else 1
  let t := if s.startsWith "-" then s.drop 1 else if s.startsWith "+" then s.drop 1 else s
  match t.splitOn "." with
  | [i] => (i.toNat?).map (fun n => sgn * (n : ℚ))
  | [i, f] =>
      if i = "" ∧ f = "" then none
      else
        let ip : Option ℚ := if i = "" then some 0 else (i.toNat?).map (fun n => (n : ℚ))
        let fp : Option ℚ :=
          if f = "" then some 0
          else (f.toNat?).map (fun n => (n : ℚ) / (10 : ℚ) ^ f.length)
        match ip, fp with
        | some a, some b => some (sgn * (a + b))
        | _, _ => none
  | _ => none

/-- One `val cf` pair of a multi-valued reply: `pair.strip().split(' ')`
must yield exactly two tokens (otherwise the tuple unpacking raises),
the value must convert, and the certainty token must parse. -/
def parsePair (p : Param) (pair : String) : Option (PyVal × ℚ) :=
  match pair.trim.splitOn " " with
  | [v, c] =>
      match p.fromString v, parseFloat c with
      | some pv, some q => some (pv, q)
      | _, _ => none
  | _ => none

/-- `parse_reply`: a comma means a list of `value cf` pairs, otherwise a
single value with certainty `CF.true`.  Any exception while parsing
rejects the whole reply (`none`); note Python builds the complete list
before the caller accumulates anything, so a rejected reply never stores
partial evidence. -/
def parseReply (p : Param) (reply : String) : Option (List (PyVal × ℚ)) :=
  if reply.contains ',' then (reply.splitOn ",").mapM (parsePair p)
  else (p.fromString reply).map (fun v => [(v, cfTrueVal)])

/-- `Shell.HELP`. -/
def helpText : String :=
  "Type one of the following:\n?       - to see possible answers for this parameter\nrule    - to show the current rule\nwhy     - to see why this question is asked\nhelp    - to show this message\nunknown - if the answer to this question is not known\n<val>   - a single definite answer to the question\n<val1> <cf1> [, <val2> <cf2>, ...]\n        - if there are multiple answers with associated certainty factors."

/-- What `write(self.current_rule)` prints. -/
def renderCurRule : CurRule → String
  | .initialS => "initial"
  | .goalS => "goal"
  | .rul r => r.render
  | .pynone => "None"

/-- The premise-partition loop of `print_why`, threading the `get_vals`
insertions through the store. -/
def printWhyPartition : List BCond → Values → Values × (List BCond × List BCond)
  | [], kv => (kv, ([], []))
  | c :: cs, kv =>
      let r := getVals kv c.param c.inst
      let rest := printWhyPartition cs r.2
      if cfTrueB (evalCondition c r.1) then (rest.1, (c :: rest.2.1, rest.2.2))
      else (rest.1, (rest.2.1, c :: rest.2.2))

/-- The body of `Shell.print_why` after the opening line is written.
With `current_rule = None` Python raises (`None.premises`): modelled as
`none`. -/
def printWhyBody (param : String) (s : ShellState) : Option ShellState :=
  match s.currentRule with
  | .initialS => some (writeLine (param ++ " is one of the initial parameters.") s)
  | .goalS => some (writeLine (param ++ " is one of the goal parameters.") s)
  | .pynone => none
  | .rul r =>
      match r.premises s.instances with
      | none => none
      | some prems =>
          let pr := printWhyPartition prems s.knownValues
          let s2 : ShellState := { s with knownValues := pr.1 }
          let s3 :=
            if pr.2.1.isEmpty then s2
            else
              writeLine "Therefore,"
                (pr.2.1.foldl (fun t c => writeLine (printBCond c) t)
                  (writeLine "It is known that:" s2))
          let clone : Rule := { r with rawPremises := pr.2.2.map unbind }
          some (writeLine clone.render s3)

/-- `Shell.print_why`. -/
def printWhy (param : String) (s : ShellState) : Option ShellState :=
  printWhyBody param
    (writeLine ("Why is the value of " ++ param ++ " being asked for?") s)

/-! ## Shell resolution loop -/

/-- The `while True` loop of `Shell.ask_values`, fuelled by one unit per
iteration (each iteration consumes exactly one port response; an
exhausted port would make Python's `input()` raise `EOFError`). -/
def askLoop (param : String) (inst : Inst) : Nat → ShellState → Option (ShellState × Bool)
  | 0, _ => none
  | fuel + 1, s =>
      match s.input with
      | [] => none
      | resp :: rest =>
          let s1 := { s with input := rest }
          if resp = "" then askLoop param inst fuel s1
          else if resp = "unknown" then some (s1, false)
          else if resp = "help" then askLoop param inst fuel (writeLine helpText s1)
          else if resp = "why" then
            match printWhy param s1 with
            | none => none
            | some s2 => askLoop param inst fuel s2
          else if resp = "rule" then
            askLoop param inst fuel (writeLine (renderCurRule s1.currentRule) s1)
          else if resp = "?" then
            match (getParam s1 param).typeString with
            | none => none
            | some ts =>
                askLoop param inst fuel
                  (writeLine (param ++ " must be of type " ++ ts) s1)
          else
            match parseReply (getParam s1 param) resp with
            | some pairs =>
                let kv2 := pairs.foldl
                  (fun kv vq => updateCf kv param inst vq.1 vq.2) s1.knownValues
                some ({ s1 with knownValues := kv2 }, true)
            | none =>
                askLoop param inst fuel
                  (writeLine "Invalid response. Type ? to see legal ones." s1)

/-- `Shell.ask_values`.  An already-asked pair returns immediately; Python
returns `None` there, which every caller uses as a falsy value, so it is
modelled as `false`. -/
def askValues (fuel : Nat) (param : String) (inst : Inst) (s : ShellState) :
    Option (ShellState × Bool) :=
  if (param, inst) ∈ s.asked then some (s, false)
  else askLoop param inst fuel { s with asked := sinsert (param, inst) s.asked }

/-- `inst = inst or self.current_inst` at the top of `find_out` (an
instance tuple is always truthy). -/
def resolveInst (instOpt : Option Inst) (s : ShellState) : Option Inst :=
  match instOpt with
  | some i => some i
  | none => s.currentInst

/-- `Shell.find_out`, fuelled: the recursion through `use_rules` back into
`find_out` is bounded only by the rule-dependency graph, so each recursive
resolution consumes one unit.  With `inst=None` and no current instance
the call is out of model (`none`). -/
def findOut : Nat → String → Option Inst → ShellState → Option (ShellState × Bool)
  | 0, _, _, _ => none
  | fuel + 1, param, instOpt, s =>
      match resolveInst instOpt s with
      | none => none
      | some inst =>
          if (param, inst) ∈ s.known then some (s, true)
          else
            let hook : Hook := fun p i t => findOut fuel p (some i) t
            let track : Track := fun r t => setCurrentRule (.rul r) t
            let outcome : Option (ShellState × Bool) :=
              if (getParam s param).askFirst then
                match askValues fuel param inst s with
                | none => none
                | some (s1, true) => some (s1, true)
                | some (s1, false) =>
                    useRules (some hook) (some track) (getRules s1 param) s1
              else
                match useRules (some hook) (some track) (getRules s param) s with
                | none => none
                | some (s1, true) => some (s1, true)
                | some (s1, false) => askValues fuel param inst s1
            match outcome with
            | none => none
            | some (s1, success) =>
                if success then
                  some ({ s1 with known := sinsert (param, inst) s1.known }, true)
                else some (s1, false)

/-- `Shell.clear`. -/
def clearShell (s : ShellState) : ShellState :=
  { s with known := [], asked := [], knownValues := [], currentInst := none,
           currentRule := .pynone, instances := [] }

/-- `Shell.instantiate`: allocate the next instance of a context (KeyError
on an unknown context name is `none`). -/
def instantiateShell (name : String) (s : ShellState) : Option ShellState :=
  match alookup s.contexts name with
  | none => none
  | some c =>
      let inst : Inst := (c.name, c.count)
      some { s with contexts := aset s.contexts name { c with count := c.count + 1 },
                    currentInst := some inst,
                    instances := aset s.instances name inst }

/-- The `for param in ...: self.find_out(param)` loops of `execute`
(`find_out` results are discarded there). -/
def goParams (fuel : Nat) : List String → ShellState → Option ShellState
  | [], s => some s
  | p :: ps, s =>
      match findOut fuel p none s with
      | none => none
      | some (s1, _) => goParams fuel ps s1

/-- The goal-snapshot loop of `execute`: `result[param] = get_vals(...)`,
threading the lazy entry insertions. -/
def snapshotGoals (goals : List String) (inst : Inst) (kv : Values) :
    Values × ResultMap :=
  goals.foldl
    (fun acc p =>
      let r := getVals acc.1 p inst
      (r.2, aset acc.2 p r.1)) (kv, [])

/-- The per-context body of `execute`, iterated over the session's context
names. -/
def executeGo (fuel : Nat) : List String → ShellState → Results → Option (ShellState × Results)
  | [], s, res => some (s, res)
  | name :: rest, s, res =>
      match alookup s.contexts name with
      | none => none
      | some ctx =>
          match instantiateShell name s with
          | none => none
          | some s1 =>
              match goParams fuel ctx.initialData (setCurrentRule .initialS s1) with
              | none => none
              | some s3 =>
                  match goParams fuel ctx.goals (setCurrentRule .goalS s3) with
                  | none => none
                  | some s5 =>
                      if ctx.goals.isEmpty then executeGo fuel rest s5 res
                      else
                        match s5.currentInst with
                        | none => none
                        | some inst =>
                            let sr := snapshotGoals ctx.goals inst s5.knownValues
                            executeGo fuel rest { s5 with knownValues := sr.1 }
                              (aset res inst sr.2)

/-- The banner `execute` writes before clearing session state. -/
def execBanner : String :=
  "Beginning execution. For help answering questions, type \"help\"."

/-- `Shell.execute`: write the banner, reset all session state (context
counters survive), process each named context, and return the goal
snapshots keyed by instance. -/
def execute (fuel : Nat) (names : List String) (s : ShellState) :
    Option (ShellState × Results) :=
  executeGo fuel names (clearShell (writeLine execBanner s)) []


/-! ## Invariant predicates -/

/-- Every stored certainty factor lies in `[-1, 1]`. -/
def StoreOK (kv : Values) : Prop :=
  ∀ p i v, -1 ≤ valueCf kv p i v ∧ valueCf kv p i v ≤ 1

/-- The certainty token of one `val cf` pair, when it parses at all, lies
in `[-1, 1]`. -/
def pairCfOK (pair : String) : Prop :=
  match pair.trim.splitOn " " with
  | [_, c] =>
      match parseFloat c with
      | some q => -1 ≤ q ∧ q ≤ 1
      | none => True
  | _ => True

/-- Every certainty token appearing in one port response parses inside
`[-1, 1]`.  (`parse_reply` itself never checks this.) -/
def replyCfsOK (r : String) : Prop :=
  if r.contains ',' then ∀ pair ∈ r.splitOn ",", pairCfOK pair
  else True

/-- Every pending port response satisfies `replyCfsOK`. -/
def StreamOK (input : List String) : Prop := ∀ r ∈ input, replyCfsOK r

/-- The engine invariant: a store of valid CFs together with a response
stream whose certainty tokens are valid. -/
def EngInv (s : ShellState) : Prop := StoreOK s.knownValues ∧ StreamOK s.input

/-- A missing-value hook that preserves the invariant. -/
def HookOK (h : Hook) : Prop :=
  ∀ p i s res, EngInv s → h p i s = some res → EngInv res.1

/-- `HookOK` lifted to an optional hook. -/
def OHookOK : Option Hook → Prop
  | none => True
  | some h => HookOK h

/-- A rule-selection observer that leaves the store and the stream alone
(like `Shell._set_current_rule`). -/
def OTrackOK : Option Track → Prop
  | none => True
  | some t => ∀ r s, (t r s).knownValues = s.knownValues ∧ (t r s).input = s.input

/-- All bounds of one stored certainty factor in the outcome of a
(possibly failing) `execute` run. -/
def resStoreBounded (o : Option (ShellState × Results)) (p : String) (i : Inst)
    (v : PyVal) : Prop :=
  ∀ res ∈ o, -1 ≤ valueCf res.1.knownValues p i v ∧ valueCf res.1.knownValues p i v ≤ 1

/-! ## Concrete knowledge bases used by the claims -/

/-- A shell with empty definitions and session state. -/
def emptyShell : ShellState :=
  { rules := [], contexts := [], params := [], known := [], asked := [],
    knownValues := [], currentInst := none, instances := [],
    currentRule := .pynone, input := [], output := [] }

/-- Scenario 1 parameter `x` (integer, resolved by asking). -/
def paramX : Param :=
  { name := "x", ctx := some "c", enum := none, cls := some intCls, askFirst := false }

/-- Scenario 1 parameter `y` (enumerated over `lo`/`hi`). -/
def paramY : Param :=
  { name := "y", ctx := some "c", enum := some ["lo", "hi"], cls := none, askFirst := false }

/-- Scenario 1 rule: `IF x ≥ 10 THEN (0.9) y = hi`. -/
def ruleXY : Rule :=
  { num := 1, cf := 9/10,
    rawPremises := [⟨"x", .name "c", geOp, .int 10⟩],
    rawConclusions := [⟨"y", .name "c", eqOp, .str "hi"⟩] }

/-- Scenario 1 context `c` with initial `x` and goal `y`. -/
def ctxC : Context := { name := "c", initialData := ["x"], goals := ["y"], count := 0 }

/-- The Scenario 1 shell, with the port primed to answer `15`. -/
def s3 : ShellState :=
  { emptyShell with
    rules := [("y", [ruleXY])], contexts := [("c", ctxC)],
    params := [("x", paramX), ("y", paramY)], input := ["15"] }

/-- A premise-free rule concluding `g = a` with attenuation 0.9. -/
def ruleG1 : Rule :=
  { num := 1, cf := 9/10, rawPremises := [],
    rawConclusions := [⟨"g", .name "c", eqOp, .str "a"⟩] }

/-- A premise-free rule concluding `g = b` with attenuation 0.8. -/
def ruleG2 : Rule :=
  { num := 2, cf := 4/5, rawPremises := [],
    rawConclusions := [⟨"g", .name "c", eqOp, .str "b"⟩] }

/-- A shell binding context `c` to instance `(c, 0)`, with an empty store. -/
def sInst : ShellState := { emptyShell with instances := [("c", ("c", 0))] }

/-- A shell holding only the `y` parameter, with the port primed with a
reply whose second certainty token is `5`. -/
def sBad : ShellState :=
  { emptyShell with params := [("y", paramY)], input := ["lo 0.3, hi 5"] }

/-- A rule with one unsatisfied premise (`x = 1` against an empty store). -/
def ruleC4 : Rule :=
  { num := 4, cf := 9/10, rawPremises := [⟨"x", .name "c", eqOp, .int 1⟩],
    rawConclusions := [⟨"y", .name "c", eqOp, .str "a"⟩] }

/-- A rule whose first premise evaluates `cf_false` against `sC6`. -/
def ruleC6 : Rule :=
  { num := 6, cf := 9/10,
    rawPremises := [⟨"x", .name "c", eqOp, .int 2⟩, ⟨"z", .name "c", eqOp, .int 3⟩],
    rawConclusions := [⟨"y", .name "c", eqOp, .str "a"⟩] }

/-- A shell whose store refutes `x = 2` with full certainty. -/
def sC6 : ShellState :=
  { emptyShell with
    instances := [("c", ("c", 0))],
    knownValues := [(("x", ("c", 0)), [(.int 2, -1)])] }

/-- A shell that already knows `("x", ("c", 0))`. -/
def sC7 : ShellState :=
  { emptyShell with
    known := [("x", ("c", 0))],
    knownValues := [(("x", ("c", 0)), [(.int 5, 1)])],
    input := ["would-be-reply"] }

/-- A shell for the malformed-reply step: the port is primed with an
unparseable response followed by a withdrawal. -/
def sC9 : ShellState :=
  { emptyShell with params := [("y", paramY)], input := ["zzz", "unknown"] }


/-- The Scenario 1 shell with leftover session state (used to check that
`execute` ignores it). -/
def s10 : ShellState :=
  { s3 with
    known := [("z", ("c", 5))], asked := [("w", ("c", 1))],
    knownValues := [(("w", ("c", 1)), [(.int 7, 1/2)])], currentRule := .goalS }


/-- A context whose only goal is `y` (asked directly: no rules). -/
def ctxY : Context := { name := "c", initialData := [], goals := ["y"], count := 0 }

/-- A shell that will ask for `y` and receive a reply whose second
certainty token is `5`. -/
def sBadX : ShellState :=
  { emptyShell with
    contexts := [("c", ctxY)],
    params := [("y", paramY)],
    input := ["lo 0.3, hi 5"] }

/-! # Proofs -/

/-! ## Basic association-list lemmas -/

theorem alookup_append {α β : Type} [DecidableEq α] (l m : List (α × β)) (k : α) :
    alookup (l ++ m) k = ((alookup l k).orElse (fun _ => alookup m k)) := by
  induction l with
  | nil => simp [alookup, Option.orElse]
  | cons h t ih =>
      obtain ⟨k', v'⟩ := h
      by_cases hk : k' = k <;> simp [alookup, hk, ih, Option.orElse]

theorem alookup_aset_self {α β : Type} [DecidableEq α] (l : List (α × β)) (k : α) (v : β) :
    alookup (aset l k v) k = some v := by
  induction l with
  | nil => simp [aset, alookup]
  | cons h t ih =>
      obtain ⟨k', v'⟩ := h
      by_cases hk : k' = k <;> simp [aset, alookup, hk, ih]

theorem alookup_aset_ne {α β : Type} [DecidableEq α] (l : List (α × β)) (k k' : α) (v : β)
    (h : k ≠ k') : alookup (aset l k v) k' = alookup l k' := by
  induction l with
  | nil => simp [aset, alookup, h]
  | cons hd t ih =>
      obtain ⟨k₀, v₀⟩ := hd
      by_cases hk : k₀ = k
      · subst hk
        simp [aset, alookup, h]
      · simp [aset, alookup, hk, ih]

theorem asetdefault_fst {α β : Type} [DecidableEq α] (l : List (α × β)) (k : α) (d : β) :
    (asetdefault l k d).1 = (alookup l k).getD d := by
  unfold asetdefault
  cases alookup l k <;> simp

theorem alookup_asetdefault {α β : Type} [DecidableEq α] (l : List (α × β)) (k k' : α) (d : β) :
    alookup (asetdefault l k d).2 k' =
      ((alookup l k').orElse (fun _ => if k = k' then some d else none)) := by
  unfold asetdefault
  cases h : alookup l k with
  | some v =>
      by_cases hk : k = k'
      · subst hk
        simp [h, Option.orElse]
      · cases h' : alookup l k' <;> simp [h', hk, Option.orElse]
  | none =>
      rw [alookup_append]
      by_cases hk : k = k'
      · subst hk
        simp [alookup, h, Option.orElse]
      · simp [alookup, hk]

/-! ## Flat-view lemmas for the fact store -/

theorem entriesEq.refl (kv : Values) : entriesEq kv kv := fun _ _ => rfl

theorem entriesEq.trans {a b c : Values} (h1 : entriesEq a b) (h2 : entriesEq b c) :
    entriesEq a c := fun p i => (h1 p i).trans (h2 p i)

theorem entriesEq_valueCf {kv kv' : Values} (h : entriesEq kv kv')
    (p : String) (i : Inst) (v : PyVal) : valueCf kv p i v = valueCf kv' p i v := by
  unfold valueCf
  rw [h p i]

theorem getVals_fst (kv : Values) (p : String) (i : Inst) :
    (getVals kv p i).1 = lookupVals kv p i := by
  unfold getVals lookupVals
  rw [asetdefault_fst]

theorem lookupVals_getVals (kv : Values) (p : String) (i : Inst) (q : String) (j : Inst) :
    lookupVals (getVals kv p i).2 q j = lookupVals kv q j := by
  unfold getVals lookupVals
  rw [alookup_asetdefault]
  cases h : alookup kv (q, j) with
  | some v => simp [Option.orElse]
  | none =>
      by_cases hk : (p, i) = (q, j) <;> simp [hk, Option.orElse]

theorem entriesEq_getVals (kv : Values) (p : String) (i : Inst) :
    entriesEq (getVals kv p i).2 kv :=
  fun q j => lookupVals_getVals kv p i q j

/-- Decomposition of `update_cf`: the result is the original store with the
`(p, i)` entry rewritten; the rewritten value map agrees with the original
entry away from `v`, and at `v` holds `cf_or(old, cf)`. -/
theorem updateCf_decomp (kv : Values) (p : String) (i : Inst) (v : PyVal) (cf : ℚ) :
    ∃ ex vals kv2,
      updateCf kv p i v cf = aset kv2 (p, i) (aset vals v (cfOr ex cf)) ∧
      ex = valueCf kv p i v ∧
      (∀ w, w ≠ v → alookup vals w = alookup (lookupVals kv p i) w) ∧
      (∀ k, k ≠ ((p, i) : String × Inst) → alookup kv2 k = alookup kv k) := by
  cases hpi : alookup kv (p, i) with
  | some vs =>
      cases hvv : alookup vs v with
      | some c =>
          refine ⟨c, vs, aset kv (p, i) vs, ?_, ?_, ?_, ?_⟩
          · simp [updateCf, getCf, getVals, asetdefault, hpi, hvv, alookup_aset_self]
          · simp [valueCf, lookupVals, hpi, hvv]
          · intro w hw
            simp [lookupVals, hpi]
          · intro k hk
            exact alookup_aset_ne kv (p, i) k vs (fun h => hk h.symm)
      | none =>
          refine ⟨0, vs ++ [(v, 0)], aset kv (p, i) (vs ++ [(v, 0)]), ?_, ?_, ?_, ?_⟩
          · simp [updateCf, getCf, getVals, asetdefault, hpi, hvv, alookup_aset_self]
          · simp [valueCf, lookupVals, hpi, hvv]
          · intro w hw
            rw [alookup_append]
            simp [lookupVals, hpi, alookup, Ne.symm hw, Option.orElse]
            cases alookup vs w <;> simp
          · intro k hk
            exact alookup_aset_ne kv (p, i) k _ (fun h => hk h.symm)
  | none =>
      refine ⟨0, [(v, 0)], aset (kv ++ [((p, i), [])]) (p, i) [(v, 0)], ?_, ?_, ?_, ?_⟩
      · simp [updateCf, getCf, getVals, asetdefault, hpi, alookup_append, alookup,
              alookup_aset_self, Option.orElse]
      · simp [valueCf, lookupVals, hpi, alookup]
      · intro w hw
        simp [lookupVals, hpi, alookup, Ne.symm hw]
      · intro k hk
        rw [alookup_aset_ne _ (p, i) k _ (Ne.symm hk)]
        rw [alookup_append]
        simp [alookup, Ne.symm hk, Option.orElse]
        cases alookup kv k <;> simp

/-- Reading the store after `update_cf`: the touched triple now holds
`cf_or(old, cf)`, every other triple is unchanged. -/
theorem valueCf_updateCf (kv : Values) (p : String) (i : Inst) (v : PyVal) (cf : ℚ)
    (q : String) (j : Inst) (w : PyVal) :
    valueCf (updateCf kv p i v cf) q j w =
      if (q, j, w) = (p, i, v) then cfOr (valueCf kv p i v) cf else valueCf kv q j w := by
  obtain ⟨ex, vals, kv2, heq, hex, hvals, hkv2⟩ := updateCf_decomp kv p i v cf
  rw [heq]
  by_cases hk : ((q, j) : String × Inst) = (p, i)
  · rw [Prod.ext_iff] at hk
    obtain ⟨hq, hj⟩ := hk
    dsimp at hq hj
    subst hq
    subst hj
    unfold valueCf lookupVals
    rw [alookup_aset_self]
    simp only [Option.getD_some]
    by_cases hw : w = v
    · subst hw
      rw [alookup_aset_self]
      simp [hex, valueCf, lookupVals]
    · rw [alookup_aset_ne _ v w _ (fun h => hw h.symm)]
      rw [hvals w hw]
      have : ((q, j, w) : String × Inst × PyVal) ≠ (q, j, v) := by
        intro hcon
        exact hw (congrArg (fun t => t.2.2) hcon)
      rw [if_neg this]
      rfl
  · unfold valueCf lookupVals
    rw [alookup_aset_ne _ (p, i) (q, j) _ (fun h => hk h.symm)]
    rw [hkv2 (q, j) hk]
    have : ((q, j, w) : String × Inst × PyVal) ≠ (p, i, v) := by
      intro hcon
      apply hk
      have h1 := congrArg (fun t => t.1) hcon
      have h2 := congrArg (fun t => t.2.1) hcon
      dsimp at h1 h2
      rw [Prod.ext_iff]
      exact ⟨h1, h2⟩
    rw [if_neg this]

/-! ## Certainty-algebra bounds -/

/-- In the mixed-sign case the sum of the operands is bounded by the
divisor `1 - min |a| |b|` in absolute value. -/
theorem mixed_abs_bound (a b : ℚ) (ha1 : -1 ≤ a) (ha2 : a ≤ 1) (hb1 : -1 ≤ b) (hb2 : b ≤ 1)
    (hab : (a ≤ 0 ∧ 0 ≤ b) ∨ (b ≤ 0 ∧ 0 ≤ a)) : |a + b| ≤ 1 - min |a| |b| := by
  rcases hab with ⟨ha, hb⟩ | ⟨hb, ha⟩
  · rw [abs_of_nonpos ha, abs_of_nonneg hb]
    rcases le_total (-a) b with h | h
    · rw [min_eq_left h, abs_of_nonneg (by linarith : (0 : ℚ) ≤ a + b)]
      linarith
    · rw [min_eq_right h, abs_of_nonpos (by linarith : a + b ≤ 0)]
      linarith
  · rw [abs_of_nonneg ha, abs_of_nonpos hb]
    rcases le_total a (-b) with h | h
    · rw [min_eq_left h, abs_of_nonpos (by linarith : a + b ≤ 0)]
      linarith
    · rw [min_eq_right h, abs_of_nonneg (by linarith : (0 : ℚ) ≤ a + b)]
      linarith

/-- `cf_or` of two valid certainty factors is a valid certainty factor.
The ℚ-total division also covers the Python-singular pairs `(1, -1)` and
`(-1, 1)` (where Python raises, so it stores nothing). -/
theorem cfOr_bounds (a b : ℚ) (ha1 : -1 ≤ a) (ha2 : a ≤ 1) (hb1 : -1 ≤ b) (hb2 : b ≤ 1) :
    -1 ≤ cfOr a b ∧ cfOr a b ≤ 1 := by
  unfold cfOr
  split_ifs with h1 h2
  · obtain ⟨hpa, hpb⟩ := h1
    constructor <;> nlinarith [mul_nonneg (by linarith : (0:ℚ) ≤ 1 - a) (by linarith : (0:ℚ) ≤ 1 - b)]
  · obtain ⟨hna, hnb⟩ := h2
    constructor <;> nlinarith [mul_nonneg (by linarith : (0:ℚ) ≤ 1 + a) (by linarith : (0:ℚ) ≤ 1 + b)]
  · have hm0 : (0 : ℚ) ≤ min |a| |b| := le_min (abs_nonneg a) (abs_nonneg b)
    have hm1 : min |a| |b| ≤ 1 := (min_le_left _ _).trans (abs_le.mpr ⟨ha1, ha2⟩)
    by_cases hd : (1 : ℚ) - min |a| |b| = 0
    · rw [hd, div_zero]
      constructor <;> norm_num
    · have hdpos : 0 < 1 - min |a| |b| := lt_of_le_of_ne (by linarith) (Ne.symm hd)
      have hab : (a ≤ 0 ∧ 0 ≤ b) ∨ (b ≤ 0 ∧ 0 ≤ a) := by
        push_neg at h1 h2
        rcases lt_trichotomy a 0 with hc | hc | hc
        · exact Or.inl ⟨le_of_lt hc, h2 hc⟩
        · rcases le_total b 0 with hb0 | hb0
          · exact Or.inr ⟨hb0, ge_of_eq hc⟩
          · exact Or.inl ⟨le_of_eq hc, hb0⟩
        · exact Or.inr ⟨h1 hc, le_of_lt hc⟩
      have hbound := mixed_abs_bound a b ha1 ha2 hb1 hb2 hab
      obtain ⟨hlo, hhi⟩ := abs_le.mp hbound
      constructor
      · rw [le_div_iff₀ hdpos]
        linarith
      · rw [div_le_one hdpos]
        linarith

/-- `cf_or(unknown, c) = c`: accumulating onto no prior evidence stores
the new certainty factor itself. -/
theorem cfOr_zero_left (c : ℚ) : cfOr 0 c = c := by
  unfold cfOr
  have h1 : ¬((0 : ℚ) < 0 ∧ 0 < c) := fun h => lt_irrefl 0 h.1
  have h2 : ¬((0 : ℚ) < 0 ∧ c < 0) := fun h => lt_irrefl 0 h.1
  rw [if_neg h1, if_neg (fun h => lt_irrefl (0:ℚ) h.1)]
  rw [abs_zero, min_eq_left (abs_nonneg c)]
  simp

/-- A certainty factor that passes `cf_true` lies in `[-1, 1]` (indeed in
`(0.2, 1]`). -/
theorem cfTrueB_bounds (x : ℚ) (h : cfTrueB x = true) : -1 ≤ x ∧ x ≤ 1 := by
  unfold cfTrueB isCf cfFalseVal cfTrueVal at h
  simp only [Bool.and_eq_true, decide_eq_true_eq] at h
  exact ⟨h.1.1, h.1.2⟩


set_option synthInstance.maxSize 512

/-- Unfolding of the `use_rules` comprehension on a cons cell. -/
theorem applyAll_cons (hook : Option Hook) (track : Option Track) (r : Rule)
    (rs : List Rule) (s : ShellState) :
    applyAll hook track (r :: rs) s =
      (Rule.apply hook track r s).bind
        (fun p => (applyAll hook track rs p.1).map (fun q => (q.1, p.2 :: q.2))) := by
  cases hp : Rule.apply hook track r s with
  | none => simp [applyAll, hp]
  | some p =>
      obtain ⟨s1, b⟩ := p
      cases h : applyAll hook track rs s1 with
      | none => simp [applyAll, hp, h]
      | some q =>
          obtain ⟨s2, bs⟩ := q
          simp [applyAll, hp, h]

/-! ## Claim C1 -/

/-- C1, counterexample: with two premise-free rules for `g`, the first
fires (storing `a ↦ 0.9`) and the second is nevertheless also applied and
fires (storing `b ↦ 0.8`), contradicting "no rule after it in the list is
applied in that resolution pass". -/
theorem C1_counterexample :
    (useRules none none [ruleG1, ruleG2] sInst).map
      (fun p => (valueCf p.1.knownValues "g" ("c", 0) (.str "a"),
                 valueCf p.1.knownValues "g" ("c", 0) (.str "b"), p.2)) =
      some (9/10, 4/5, true) := by
  with_unfolding_all decide

/-- C1 (amended): `use_rules` evaluates `any` over the fully built list
comprehension, so it applies every rule in order — a later rule is
attempted even when an earlier one fired — and returns true iff at least
one application fired. -/
theorem C1_use_rules_applies_all (hook : Option Hook) (track : Option Track)
    (r : Rule) (rs : List Rule) (s : ShellState) :
    useRules hook track (r :: rs) s =
      (Rule.apply hook track r s).bind
        (fun p => (useRules hook track rs p.1).map (fun q => (q.1, p.2 || q.2))) := by
  unfold useRules
  rw [applyAll_cons]
  cases hp : Rule.apply hook track r s with
  | none => rfl
  | some p =>
      cases h : applyAll hook track rs p.1 with
      | none => simp [h]
      | some q => simp [h]

/-! ## Claim C3 -/

/-- C3: on the Scenario 1 knowledge base with the port answering `15`,
`execute(["c"])` returns exactly `{(c, 0): {y: {hi: 0.9}}}`. -/
theorem C3_scenario1 :
    (execute 10 ["c"] s3).map (fun p => p.2) =
      some [(("c", 0), [("y", [(PyVal.str "hi", 9/10)])])] := by
  with_unfolding_all decide

/-! ## Claim C5 -/

/-- C5: starting from no evidence for `(p, i, v)`, accumulating `c1` and
then `c2` stores exactly `cf_or(c1, c2)`. -/
theorem C5_accumulate_cf_or (kv : Values) (p : String) (i : Inst) (v : PyVal)
    (c1 c2 : ℚ) (h : valueCf kv p i v = 0) :
    valueCf (updateCf (updateCf kv p i v c1) p i v c2) p i v = cfOr c1 c2 := by
  have h1 := valueCf_updateCf kv p i v c1 p i v
  rw [if_pos rfl, h, cfOr_zero_left] at h1
  have h2 := valueCf_updateCf (updateCf kv p i v c1) p i v c2 p i v
  rw [if_pos rfl, h1] at h2
  exact h2

/-- Witness for C5 at `c1 = c2 = 1/2`: the stored value `cf_or(1/2, 1/2)`
is `3/4`, which is neither the plain overwrite `1/2` nor the plain sum
`1`. -/
theorem C5_accumulate_cf_or_witness :
    valueCf ([] : Values) "p" ("c", 0) (.str "a") = 0 ∧
    valueCf (updateCf (updateCf ([] : Values) "p" ("c", 0) (.str "a") (1/2))
        "p" ("c", 0) (.str "a") (1/2)) "p" ("c", 0) (.str "a") = cfOr (1/2) (1/2) ∧
    cfOr (1/2) (1/2) = 3/4 ∧
    ¬ cfOr (1/2) (1/2) = 1/2 ∧ ¬ cfOr (1/2) (1/2) = 1/2 + 1/2 :=
  ⟨by with_unfolding_all decide,
   C5_accumulate_cf_or [] "p" ("c", 0) (.str "a") (1/2) (1/2) (by with_unfolding_all decide),
   by with_unfolding_all decide, by with_unfolding_all decide, by with_unfolding_all decide⟩

/-! ## Claim C7 -/

/-- C7: when `(param, inst)` is already known, `find_out` returns `true`
with the state untouched — the port stream, the fact store and the
known/asked sets are all returned exactly as given, so no question is
asked and no rule is evaluated. -/
theorem C7_find_out_memo (fuel : Nat) (param : String) (inst : Inst) (s : ShellState)
    (h : (param, inst) ∈ s.known) :
    findOut (fuel + 1) param (some inst) s = some (s, true) := by
  unfold findOut
  simp [resolveInst, h]

/-- Witness for C7 on a shell that already knows `("x", ("c", 0))`. -/
theorem C7_find_out_memo_witness :
    (("x", ("c", 0)) ∈ sC7.known) ∧ findOut 4 "x" (some ("c", 0)) sC7 = some (sC7, true) :=
  ⟨by with_unfolding_all decide,
   C7_find_out_memo 3 "x" ("c", 0) sC7 (by with_unfolding_all decide)⟩

/-! ## Claim C8 -/

/-- C8: for valid certainty factors excluding the two singular pairs, the
mixed-sign divisor of `cf_or` is nonzero whenever that branch is taken,
and the result is again a valid certainty factor. -/
theorem C8_cf_or_safe (a b : ℚ) (ha1 : -1 ≤ a) (ha2 : a ≤ 1) (hb1 : -1 ≤ b) (hb2 : b ≤ 1)
    (hx1 : ¬(a = 1 ∧ b = -1)) (hx2 : ¬(a = -1 ∧ b = 1)) :
    ((¬(0 < a ∧ 0 < b)) → (¬(a < 0 ∧ b < 0)) → ¬ (1 - min |a| |b|) = 0) ∧
    -1 ≤ cfOr a b ∧ cfOr a b ≤ 1 := by
  refine ⟨?_, cfOr_bounds a b ha1 ha2 hb1 hb2⟩
  intro h1 h2 hd
  have hm : min |a| |b| = 1 := by linarith
  have haa : |a| = 1 := by
    have hle : |a| ≤ 1 := abs_le.mpr ⟨ha1, ha2⟩
    have hge := min_le_left |a| |b|
    linarith
  have hbb : |b| = 1 := by
    have hle : |b| ≤ 1 := abs_le.mpr ⟨hb1, hb2⟩
    have hge := min_le_right |a| |b|
    linarith
  rcases (abs_eq (by norm_num : (0:ℚ) ≤ 1)).mp haa with ha | ha <;>
    rcases (abs_eq (by norm_num : (0:ℚ) ≤ 1)).mp hbb with hb | hb
  · exact h1 ⟨by rw [ha]; norm_num, by rw [hb]; norm_num⟩
  · exact hx1 ⟨ha, hb⟩
  · exact hx2 ⟨ha, hb⟩
  · exact h2 ⟨by rw [ha]; norm_num, by rw [hb]; norm_num⟩

/-- Witness for C8 at the mixed-sign pair `(1/2, -1/2)`. -/
theorem C8_cf_or_safe_witness :
    (¬((1/2 : ℚ) = 1 ∧ (-1/2 : ℚ) = -1)) ∧ (¬((1/2 : ℚ) = -1 ∧ (-1/2 : ℚ) = 1)) ∧
    (-1 ≤ cfOr (1/2) (-1/2) ∧ cfOr (1/2) (-1/2) ≤ 1) :=
  ⟨by norm_num, by norm_num,
   (C8_cf_or_safe (1/2) (-1/2) (by norm_num) (by norm_num) (by norm_num) (by norm_num)
     (by norm_num) (by norm_num)).2⟩

/-! ## Claim C10 -/

/-- C10: `execute` depends only on the knowledge-base definitions and the
port's response sequence: two engines agreeing on rules, contexts,
parameters, pending input and transcript produce identical outcomes
(results and final state alike), whatever leftover session state they
carry — `execute` resets it. -/
theorem C10_execute_deterministic (fuel : Nat) (names : List String) (s1 s2 : ShellState)
    (hr : s1.rules = s2.rules) (hc : s1.contexts = s2.contexts)
    (hp : s1.params = s2.params) (hi : s1.input = s2.input) (ho : s1.output = s2.output) :
    execute fuel names s1 = execute fuel names s2 := by
  unfold execute
  have h : clearShell (writeLine execBanner s1) = clearShell (writeLine execBanner s2) := by
    cases s1
    cases s2
    simp_all [clearShell, writeLine]
  rw [h]

/-- Witness for C10: the Scenario 1 shell against the same shell carrying
stale session leftovers. -/
theorem C10_execute_deterministic_witness :
    execute 10 ["c"] s3 = execute 10 ["c"] s10 :=
  C10_execute_deterministic 10 ["c"] s3 s10 rfl rfl rfl rfl rfl

/-! ## Frame lemmas for the rule engine -/

/-- Pass 1 only performs lazy empty-entry insertions: every entry reads
unchanged. -/
theorem pass1_entriesEq (cs : List BCond) (kv : Values) :
    entriesEq (pass1 cs kv).1 kv := by
  induction cs generalizing kv with
  | nil => exact entriesEq.refl kv
  | cons c cs ih =>
      unfold pass1
      cases hf : cfFalseB (evalCondition c (getVals kv c.param c.inst).1) with
      | true =>
          simp only [hf, if_true]
          exact entriesEq_getVals kv c.param c.inst
      | false =>
          simp only [hf, Bool.false_eq_true, if_false]
          exact ((ih _)).trans (entriesEq_getVals kv c.param c.inst)

/-- Pass 2 without a hook only touches the store through lazy empty-entry
insertions, and changes nothing else of the state. -/
theorem pass2_none_shape (cs : List BCond) (total : ℚ) (s : ShellState) :
    ∃ kv q, pass2 none cs total s = some ({ s with knownValues := kv }, q) ∧
      entriesEq kv s.knownValues := by
  induction cs generalizing total s with
  | nil => exact ⟨s.knownValues, total, rfl, entriesEq.refl _⟩
  | cons c cs ih =>
      unfold pass2 runHook
      cases hf : cfTrueB (cfAnd total
          (evalCondition c (lookupVals (getVals s.knownValues c.param c.inst).2
            c.param c.inst))) with
      | true =>
          obtain ⟨kv, q, heq, hent⟩ := ih (cfAnd total
            (evalCondition c (lookupVals (getVals s.knownValues c.param c.inst).2
              c.param c.inst)))
            { s with knownValues := (getVals s.knownValues c.param c.inst).2 }
          refine ⟨kv, q, ?_, hent.trans (entriesEq_getVals s.knownValues c.param c.inst)⟩
          simp only [hf, if_true, Option.map_some]
          exact heq
      | false =>
          refine ⟨(getVals s.knownValues c.param c.inst).2, cfFalseVal, ?_,
            entriesEq_getVals s.knownValues c.param c.inst⟩
          simp only [hf, Bool.false_eq_true, if_false, Option.map_some]

/-- `applicable` without a hook either fails on binding or returns the
input state with only lazy empty entries added to the store. -/
theorem applicable_none_shape (r : Rule) (s : ShellState) :
    applicable none r s = none ∨
    ∃ kv q, applicable none r s = some ({ s with knownValues := kv }, q) ∧
      entriesEq kv s.knownValues := by
  unfold applicable
  cases hb : r.premises s.instances with
  | none => exact Or.inl rfl
  | some prems =>
      cases hd : (pass1 prems s.knownValues).2 with
      | true =>
          refine Or.inr ⟨(pass1 prems s.knownValues).1, cfFalseVal, ?_,
            pass1_entriesEq prems s.knownValues⟩
          simp only [hd, if_true]
      | false =>
          obtain ⟨kv, q, heq, hent⟩ := pass2_none_shape prems cfTrueVal
            { s with knownValues := (pass1 prems s.knownValues).1 }
          refine Or.inr ⟨kv, q, ?_, hent.trans (pass1_entriesEq prems s.knownValues)⟩
          simp only [hd, Bool.false_eq_true, if_false]
          exact heq

/-! ## Claim C4 -/

/-- C4, counterexample: on a rule whose single premise reads an absent
`(param, inst)` entry, `apply` returns `false` (the effective certainty
`0.9 × (-1)` is not `cf_true`) yet the fact store is changed — `get_vals`
added the empty entry `("x", ("c", 0)) ↦ {}` — contradicting "no
(parameter, instance) entry ... is added or modified by the call". -/
theorem C4_counterexample :
    ((Rule.apply none none ruleC4 sInst).map (fun p => (p.1.knownValues, p.2))) =
      some ([(("x", ("c", 0)), [])], false) ∧
    ¬ ([(((("x", ("c", 0)) : String × Inst), ([] : Vals)))] : Values) = sInst.knownValues := by
  constructor
  · with_unfolding_all decide
  · with_unfolding_all decide

/-- C4 (amended): when the effective certainty is not `cf_true`,
`Rule.apply` (with the engine's rule tracker and no resolution hook)
returns `false` and modifies no value-to-CF binding: every
`(parameter, instance)` entry reads exactly as before.  (Lazy empty
entries may still be created for premise keys, which is the only way the
store can change.) -/
theorem C4_apply_no_binding_change (r : Rule) (s : ShellState) (s1 : ShellState) (q : ℚ)
    (happ : applicable none r (setCurrentRule (CurRule.rul r) s) = some (s1, q))
    (hq : ¬ cfTrueB (r.cf * q) = true) :
    Rule.apply none (some (fun t u => setCurrentRule (CurRule.rul t) u)) r s =
      some (s1, false) ∧
    entriesEq s1.knownValues s.knownValues := by
  constructor
  · unfold Rule.apply
    dsimp only [runTrack]
    rw [happ]
    dsimp only
    rw [if_neg hq]
  · rcases applicable_none_shape r (setCurrentRule (CurRule.rul r) s) with hnone | ⟨kv, q', heq, hent⟩
    · rw [happ] at hnone
      cases hnone
    · rw [happ] at heq
      have hpair := Option.some.inj heq
      have hs1 : s1 = { setCurrentRule (CurRule.rul r) s with knownValues := kv } :=
        congrArg Prod.fst hpair
      rw [hs1]
      exact hent

/-- Witness for C4 on `ruleC4` against the empty store. -/
theorem C4_apply_no_binding_change_witness :
    applicable none ruleC4 (setCurrentRule (CurRule.rul ruleC4) sInst) =
      some ({ sInst with
              currentRule := CurRule.rul ruleC4,
              knownValues := [(("x", ("c", 0)), [])] }, cfFalseVal) ∧
    ¬ cfTrueB (ruleC4.cf * cfFalseVal) = true ∧
    entriesEq ({ sInst with
        currentRule := CurRule.rul ruleC4,
        knownValues := [(("x", ("c", 0)), [])] }).knownValues sInst.knownValues := by
  have h1 : applicable none ruleC4 (setCurrentRule (CurRule.rul ruleC4) sInst) =
      some ({ sInst with
              currentRule := CurRule.rul ruleC4,
              knownValues := [(("x", ("c", 0)), [])] }, cfFalseVal) := by
    with_unfolding_all rfl
  have h2 : ¬ cfTrueB (ruleC4.cf * cfFalseVal) = true := by
    with_unfolding_all decide
  exact ⟨h1, h2, (C4_apply_no_binding_change ruleC4 sInst _ cfFalseVal h1 h2).2⟩

/-! ## Claim C6 -/

/-- Pass 1 flags a failure whenever some premise evaluates `cf_false`
against the (observationally unchanged) facts already known. -/
theorem pass1_detects (cs : List BCond) (kv kv0 : Values) (hent : entriesEq kv kv0)
    (hex : ∃ c ∈ cs,
      cfFalseB (evalCondition c (lookupVals kv0 c.param c.inst)) = true) :
    (pass1 cs kv).2 = true := by
  induction cs generalizing kv with
  | nil =>
      rcases hex with ⟨c, hc, _⟩
      cases hc
  | cons c cs ih =>
      unfold pass1
      have hval : (getVals kv c.param c.inst).1 = lookupVals kv0 c.param c.inst := by
        rw [getVals_fst, hent]
      cases hf : cfFalseB (evalCondition c (getVals kv c.param c.inst).1) with
      | true => simp only [hf, if_true]
      | false =>
          simp only [hf, Bool.false_eq_true, if_false]
          apply ih _ ((entriesEq_getVals kv c.param c.inst).trans hent)
          rcases hex with ⟨c', hc', hfc⟩
          rcases List.mem_cons.mp hc' with rfl | hmem
          · rw [hval, hfc] at hf
            cases hf
          · exact ⟨c', hmem, hfc⟩

/-- C6: when some bound premise already evaluates `cf_false` against the
known facts, `applicable` returns `CF.false = -1.0` from its first pass,
for any caller-supplied hook exactly as with no hook at all (so the hook
is never invoked — it cannot influence state or result), and the store is
changed only by lazy empty entries. -/
theorem C6_applicable_short_circuit (hook : Option Hook) (r : Rule) (s : ShellState)
    (prems : List BCond) (hb : r.premises s.instances = some prems)
    (hex : ∃ c ∈ prems,
      cfFalseB (evalCondition c (lookupVals s.knownValues c.param c.inst)) = true) :
    applicable hook r s = applicable none r s ∧
    ∃ kv, applicable hook r s = some ({ s with knownValues := kv }, cfFalseVal) ∧
      entriesEq kv s.knownValues := by
  have hdet : (pass1 prems s.knownValues).2 = true :=
    pass1_detects prems s.knownValues s.knownValues (entriesEq.refl _) hex
  constructor
  · unfold applicable
    rw [hb]
    simp only [hdet, if_true]
  · refine ⟨(pass1 prems s.knownValues).1, ?_, pass1_entriesEq prems s.knownValues⟩
    unfold applicable
    rw [hb]
    simp only [hdet, if_true]

/-- Witness for C6: `ruleC6`'s first premise (`x = 2`) evaluates to `-1`
against `sC6`, and `applicable` under an intrusive hook (which would both
write output and report success) coincides with the hook-free run. -/
theorem C6_applicable_short_circuit_witness :
    (ruleC6.premises sC6.instances =
      some [⟨"x", ("c", 0), eqOp, .int 2⟩, ⟨"z", ("c", 0), eqOp, .int 3⟩]) ∧
    (∃ c ∈ [(⟨"x", ("c", 0), eqOp, .int 2⟩ : BCond), ⟨"z", ("c", 0), eqOp, .int 3⟩],
      cfFalseB (evalCondition c (lookupVals sC6.knownValues c.param c.inst)) = true) ∧
    applicable (some (fun _ _ t => some (writeLine "hook ran" t, true))) ruleC6 sC6 =
      applicable none ruleC6 sC6 := by
  have hb : ruleC6.premises sC6.instances =
      some [⟨"x", ("c", 0), eqOp, .int 2⟩, ⟨"z", ("c", 0), eqOp, .int 3⟩] := by
    with_unfolding_all rfl
  have hex : ∃ c ∈ [(⟨"x", ("c", 0), eqOp, .int 2⟩ : BCond), ⟨"z", ("c", 0), eqOp, .int 3⟩],
      cfFalseB (evalCondition c (lookupVals sC6.knownValues c.param c.inst)) = true := by
    refine ⟨⟨"x", ("c", 0), eqOp, .int 2⟩, by simp, ?_⟩
    with_unfolding_all decide
  exact ⟨hb, hex,
    (C6_applicable_short_circuit (some (fun _ _ t => some (writeLine "hook ran" t, true)))
      ruleC6 sC6 _ hb hex).1⟩

/-! ## Claim C9 -/

/-- C9: a response that is not a control token and fails to parse against
the parameter's declared domain/type makes `ask_values` write the
"Invalid response" guidance line and loop for the next response — the
failure is consumed locally (the loop continues with the rest of the
stream), it does not escape `ask_values` and no evidence is stored. -/
theorem C9_invalid_reply_reprompts (param : String) (inst : Inst) (fuel : Nat)
    (s : ShellState) (resp : String) (rest : List String)
    (hin : s.input = resp :: rest)
    (h0 : ¬ resp = "") (h1 : ¬ resp = "unknown") (h2 : ¬ resp = "help")
    (h3 : ¬ resp = "why") (h4 : ¬ resp = "rule") (h5 : ¬ resp = "?")
    (hp : parseReply (getParam s param) resp = none) :
    askLoop param inst (fuel + 1) s =
      askLoop param inst fuel
        (writeLine "Invalid response. Type ? to see legal ones."
          { s with input := rest }) := by
  conv_lhs => rw [askLoop]
  rw [hin]
  have hp' : parseReply (getParam { s with input := rest } param) resp = none := hp
  dsimp only
  rw [if_neg h0, if_neg h1, if_neg h2, if_neg h3, if_neg h4, if_neg h5, hp']

/-- Witness for C9: the unparseable reply `zzz` for the enumerated
parameter `y` re-prompts with the guidance message. -/
theorem C9_invalid_reply_reprompts_witness :
    (sC9.input = "zzz" :: ["unknown"]) ∧
    parseReply (getParam sC9 "y") "zzz" = none ∧
    askLoop "y" ("c", 0) 2 sC9 =
      askLoop "y" ("c", 0) 1
        (writeLine "Invalid response. Type ? to see legal ones."
          { sC9 with input := ["unknown"] }) := by
  have hp : parseReply (getParam sC9 "y") "zzz" = none := by
    with_unfolding_all decide
  exact ⟨rfl, hp,
    C9_invalid_reply_reprompts "y" ("c", 0) 1 sC9 "zzz" ["unknown"] rfl
      (by decide) (by decide) (by decide) (by decide) (by decide) (by decide) hp⟩

/-! ## Claim C2 -/

/-- C2, counterexample: `parse_reply` does not validate certainty tokens,
so the reply `lo 0.3, hi 5` for the enumerated parameter `y` is accepted
and the session reaches a state whose stored CF for `(y, (c,0), hi)` is
`5 ∉ [-1, 1]`. -/
theorem C2_counterexample :
    (execute 5 ["c"] sBadX).map
      (fun p => valueCf p.1.knownValues "y" ("c", 0) (.str "hi")) = some 5 ∧
    ¬ ((5 : ℚ) ≤ 1) := by
  constructor
  · with_unfolding_all decide
  · norm_num

/-- Observationally equal stores transfer the CF-range invariant. -/
theorem StoreOK_entriesEq {kv kv0 : Values} (h : entriesEq kv kv0) (h0 : StoreOK kv0) :
    StoreOK kv := by
  intro p i v
  rw [entriesEq_valueCf h]
  exact h0 p i v

/-- `update_cf` with an in-range certainty keeps every stored CF in
range. -/
theorem StoreOK_updateCf {kv : Values} (h : StoreOK kv) (p : String) (i : Inst) (v : PyVal)
    {cf : ℚ} (hcf : -1 ≤ cf ∧ cf ≤ 1) : StoreOK (updateCf kv p i v cf) := by
  intro q j w
  rw [valueCf_updateCf]
  by_cases hk : ((q, j, w) : String × Inst × PyVal) = (p, i, v)
  · rw [if_pos hk]
    exact cfOr_bounds _ _ (h p i v).1 (h p i v).2 hcf.1 hcf.2
  · rw [if_neg hk]
    exact h q j w

/-- Accumulating a list of in-range `(value, cf)` pairs keeps the store in
range (the `ask_values` accumulation loop). -/
theorem StoreOK_foldUpdate (pairs : List (PyVal × ℚ)) (kv : Values) (p : String) (i : Inst)
    (hpairs : ∀ vq ∈ pairs, -1 ≤ vq.2 ∧ vq.2 ≤ 1) (h : StoreOK kv) :
    StoreOK (pairs.foldl (fun kv vq => updateCf kv p i vq.1 vq.2) kv) := by
  induction pairs generalizing kv with
  | nil => exact h
  | cons vq rest ih =>
      exact ih _ (fun x hx => hpairs x (List.mem_cons_of_mem _ hx))
        (StoreOK_updateCf h p i vq.1 (hpairs vq (List.mem_cons_self _ _)))

/-- Accumulating all conclusions with one in-range effective certainty
keeps the store in range (the `Rule.apply` conclusion loop). -/
theorem StoreOK_foldConcl (concls : List BCond) (kv : Values) {cf : ℚ}
    (hcf : -1 ≤ cf ∧ cf ≤ 1) (h : StoreOK kv) :
    StoreOK (concls.foldl (fun kv c => updateCf kv c.param c.inst c.val cf) kv) := by
  induction concls generalizing kv with
  | nil => exact h
  | cons c rest ih => exact ih _ (StoreOK_updateCf h c.param c.inst c.val hcf)

/-- `mapM` over `Option` only returns elements produced by its function. -/
theorem mapM_bounds {f : String → Option (PyVal × ℚ)} {l : List String}
    {out : List (PyVal × ℚ)}
    (hf : ∀ x ∈ l, ∀ vq, f x = some vq → -1 ≤ vq.2 ∧ vq.2 ≤ 1)
    (h : l.mapM f = some out) : ∀ vq ∈ out, -1 ≤ vq.2 ∧ vq.2 ≤ 1 := by
  induction l generalizing out with
  | nil =>
      simp only [List.mapM_nil, pure, Option.some.injEq] at h
      subst h
      intro vq hvq
      cases hvq
  | cons x xs ih =>
      rw [List.mapM_cons] at h
      cases hfx : f x with
      | none => rw [hfx] at h; cases h
      | some y =>
          rw [hfx] at h
          cases hrest : xs.mapM f with
          | none => rw [hrest] at h; cases h
          | some ys =>
              rw [hrest] at h
              simp only [Option.some_bind', Option.bind_eq_bind, Option.some.injEq,
                pure] at h
              subst h
              intro vq hvq
              rcases List.mem_cons.mp hvq with rfl | hm
              · exact hf x (List.mem_cons_self _ _) vq hfx
              · exact ih (fun z hz => hf z (List.mem_cons_of_mem _ hz)) hrest vq hm

/-- A pair whose certainty token is in range yields an in-range pair when
it parses. -/
theorem parsePair_cfOK (p : Param) (pair : String) (hok : pairCfOK pair)
    (vq : PyVal × ℚ) (h : parsePair p pair = some vq) : -1 ≤ vq.2 ∧ vq.2 ≤ 1 := by
  unfold parsePair at h
  unfold pairCfOK at hok
  cases hsp : pair.trim.splitOn " " with
  | nil => simp [hsp] at h
  | cons v t =>
      cases t with
      | nil => simp [hsp] at h
      | cons cc t2 =>
          cases t2 with
          | nil =>
              rw [hsp] at h hok
              cases hv : p.fromString v with
              | none => simp [hv] at h
              | some pv =>
                  cases hq : parseFloat cc with
                  | none => simp [hv, hq] at h
                  | some q =>
                      simp only [hv, hq] at h hok
                      cases h
                      exact hok
          | cons d t3 => simp [hsp] at h

theorem parseReply_cfs (p : Param) (r : String) (hok : replyCfsOK r)
    (pairs : List (PyVal × ℚ)) (hp : parseReply p r = some pairs) :
    ∀ vq ∈ pairs, -1 ≤ vq.2 ∧ vq.2 ≤ 1 := by
  unfold parseReply at hp
  unfold replyCfsOK at hok
  by_cases hc : r.contains ',' = true
  · rw [if_pos hc] at hp
    rw [if_pos hc] at hok
    refine mapM_bounds ?_ hp
    intro x hx vq hfx
    exact parsePair_cfOK p x (hok x hx) vq hfx
  · rw [if_neg hc] at hp
    cases hv : p.fromString r with
    | none => rw [hv] at hp; cases hp
    | some pv =>
        rw [hv] at hp
        simp only [Option.map_some', Option.some.injEq] at hp
        subst hp
        intro vq hvq
        rcases List.mem_cons.mp hvq with rfl | hm
        · constructor <;> norm_num [cfTrueVal]
        · cases hm

/-- Running the optional hook preserves the invariant when the hook
does. -/
theorem runHook_inv (hook : Option Hook) (hh : OHookOK hook) (p : String) (i : Inst)
    (s : ShellState) (h : EngInv s) (s1 : ShellState)
    (hres : runHook hook p i s = some s1) : EngInv s1 := by
  cases hook with
  | none =>
      unfold runHook at hres
      injection hres with he
      subst he
      exact h
  | some hk =>
      unfold runHook at hres
      dsimp only at hres
      cases hr : hk p i s with
      | none => rw [hr] at hres; cases hres
      | some pr =>
          rw [hr] at hres
          simp only [Option.map_some', Option.some.injEq] at hres
          subst hres
          exact hh p i s pr h hr

/-- Pass 2 preserves the invariant for any invariant-preserving hook. -/
theorem pass2_inv (hook : Option Hook) (hh : OHookOK hook) (cs : List BCond) :
    ∀ (total : ℚ) (s : ShellState), EngInv s → ∀ res,
      pass2 hook cs total s = some res → EngInv res.1 := by
  induction cs with
  | nil =>
      intro total s h res hres
      unfold pass2 at hres
      injection hres with he
      subst he
      exact h
  | cons c cs ih =>
      intro total s h res hres
      unfold pass2 at hres
      dsimp only at hres
      cases hhk : runHook hook c.param c.inst
          { s with knownValues := (getVals s.knownValues c.param c.inst).2 } with
      | none => rw [hhk] at hres; cases hres
      | some s1 =>
          rw [hhk] at hres
          dsimp only at hres
          have h1 : EngInv s1 := runHook_inv hook hh c.param c.inst
            { s with knownValues := (getVals s.knownValues c.param c.inst).2 }
            ⟨StoreOK_entriesEq (entriesEq_getVals s.knownValues c.param c.inst) h.1, h.2⟩
            s1 hhk
          by_cases hct : cfTrueB (cfAnd total (evalCondition c
              (lookupVals s1.knownValues c.param c.inst))) = true
          · rw [if_pos hct] at hres
            exact ih _ s1 h1 res hres
          · rw [if_neg hct] at hres
            injection hres with he
            subst he
            exact h1

/-- `applicable` preserves the invariant for any invariant-preserving
hook. -/
theorem applicable_inv (hook : Option Hook) (hh : OHookOK hook) (r : Rule) (s : ShellState)
    (h : EngInv s) (res : ShellState × ℚ) (hres : applicable hook r s = some res) :
    EngInv res.1 := by
  unfold applicable at hres
  cases hb : r.premises s.instances with
  | none => rw [hb] at hres; cases hres
  | some prems =>
      rw [hb] at hres
      dsimp only at hres
      have hp1 : EngInv { s with knownValues := (pass1 prems s.knownValues).1 } :=
        ⟨StoreOK_entriesEq (pass1_entriesEq prems s.knownValues) h.1, h.2⟩
      by_cases hd : (pass1 prems s.knownValues).2 = true
      · rw [if_pos hd] at hres
        injection hres with he
        subst he
        exact hp1
      · rw [if_neg hd] at hres
        exact pass2_inv hook hh prems cfTrueVal _ hp1 res hres

/-- `Rule.apply` preserves the invariant: a firing rule writes its
conclusions with an effective certainty that passed `cf_true`, hence lies
in `[-1, 1]`. -/
theorem apply_inv (hook : Option Hook) (hh : OHookOK hook) (track : Option Track)
    (ht : OTrackOK track) (r : Rule) (s : ShellState) (h : EngInv s)
    (res : ShellState × Bool) (hres : Rule.apply hook track r s = some res) :
    EngInv res.1 := by
  unfold Rule.apply at hres
  dsimp only at hres
  have h0 : EngInv (runTrack track r s) := by
    cases track with
    | none => exact h
    | some t =>
        unfold runTrack
        constructor
        · rw [(ht r s).1]
          exact h.1
        · rw [(ht r s).2]
          exact h.2
  cases ha : applicable hook r (runTrack track r s) with
  | none => rw [ha] at hres; cases hres
  | some pr =>
      obtain ⟨s1, acf⟩ := pr
      rw [ha] at hres
      dsimp only at hres
      have h1 : EngInv s1 := applicable_inv hook hh r _ h0 (s1, acf) ha
      by_cases hc : cfTrueB (r.cf * acf) = true
      · rw [if_pos hc] at hres
        cases hcc : r.conclusions s1.instances with
        | none => rw [hcc] at hres; cases hres
        | some concls =>
            rw [hcc] at hres
            dsimp only at hres
            injection hres with he
            subst he
            exact ⟨StoreOK_foldConcl concls s1.knownValues (cfTrueB_bounds _ hc) h1.1, h1.2⟩
      · rw [if_neg hc] at hres
        injection hres with he
        subst he
        exact h1

/-- The `use_rules` comprehension preserves the invariant. -/
theorem applyAll_inv (hook : Option Hook) (hh : OHookOK hook) (track : Option Track)
    (ht : OTrackOK track) (rules : List Rule) :
    ∀ (s : ShellState), EngInv s → ∀ res,
      applyAll hook track rules s = some res → EngInv res.1 := by
  induction rules with
  | nil =>
      intro s h res hres
      unfold applyAll at hres
      injection hres with he
      subst he
      exact h
  | cons r rs ih =>
      intro s h res hres
      rw [applyAll_cons] at hres
      cases hap : Rule.apply hook track r s with
      | none => rw [hap] at hres; cases hres
      | some p =>
          rw [hap] at hres
          simp only [Option.some_bind'] at hres
          cases hall : applyAll hook track rs p.1 with
          | none => rw [hall] at hres; cases hres
          | some q =>
              rw [hall] at hres
              simp only [Option.map_some', Option.some.injEq] at hres
              subst hres
              exact ih p.1 (apply_inv hook hh track ht r s h p hap) q hall

/-- `use_rules` preserves the invariant. -/
theorem useRules_inv (hook : Option Hook) (hh : OHookOK hook) (track : Option Track)
    (ht : OTrackOK track) (rules : List Rule) (s : ShellState) (h : EngInv s)
    (res : ShellState × Bool) (hres : useRules hook track rules s = some res) :
    EngInv res.1 := by
  unfold useRules at hres
  cases hall : applyAll hook track rules s with
  | none => rw [hall] at hres; cases hres
  | some q =>
      rw [hall] at hres
      simp only [Option.map_some', Option.some.injEq] at hres
      subst hres
      exact applyAll_inv hook hh track ht rules s h q hall

/-- The `print_why` partition loop only inserts lazy empty entries. -/
theorem printWhyPartition_entriesEq (cs : List BCond) (kv : Values) :
    entriesEq (printWhyPartition cs kv).1 kv := by
  induction cs generalizing kv with
  | nil => exact entriesEq.refl kv
  | cons c cs ih =>
      unfold printWhyPartition
      dsimp only
      cases hf : cfTrueB (evalCondition c (getVals kv c.param c.inst).1) with
      | true =>
          simp only [hf, if_true]
          exact (ih _).trans (entriesEq_getVals kv c.param c.inst)
      | false =>
          simp only [hf, Bool.false_eq_true, if_false]
          exact (ih _).trans (entriesEq_getVals kv c.param c.inst)

/-- Writing a transcript line does not disturb the invariant. -/
theorem EngInv_writeLine (l : String) (t : ShellState) (h : EngInv t) :
    EngInv (writeLine l t) := h

/-- Writing a batch of condition lines does not disturb the invariant. -/
theorem EngInv_foldWrite (l : List BCond) (t : ShellState) (h : EngInv t) :
    EngInv (l.foldl (fun s c => writeLine (printBCond c) s) t) := by
  induction l generalizing t with
  | nil => exact h
  | cons c cs ih => exact ih _ h

/-- The `print_why` body preserves the invariant: it writes transcript
lines and inserts only lazy empty fact-store entries. -/
theorem printWhyBody_inv (param : String) (s : ShellState) (h : EngInv s)
    (s1 : ShellState) (hres : printWhyBody param s = some s1) : EngInv s1 := by
  unfold printWhyBody at hres
  split at hres
  · injection hres with he
    subst he
    exact h
  · injection hres with he
    subst he
    exact h
  · cases hres
  · rename_i r
    split at hres
    · cases hres
    · rename_i prems hb
      injection hres with he
      subst he
      by_cases hemp : (printWhyPartition prems s.knownValues).2.1.isEmpty = true
      · rw [if_pos hemp]
        exact ⟨StoreOK_entriesEq (printWhyPartition_entriesEq prems _) h.1, h.2⟩
      · rw [if_neg hemp]
        exact EngInv_foldWrite _ _
          ⟨StoreOK_entriesEq (printWhyPartition_entriesEq prems _) h.1, h.2⟩

/-- `print_why` preserves the invariant. -/
theorem printWhy_inv (param : String) (s : ShellState) (h : EngInv s) (s1 : ShellState)
    (hres : printWhy param s = some s1) : EngInv s1 := by
  unfold printWhy at hres
  exact printWhyBody_inv param _ (EngInv_writeLine _ _ h) s1 hres

/-- The `ask_values` response loop preserves the invariant: parsed pairs
carry certainty tokens bounded by the stream hypothesis, and every other
branch only writes transcript lines or consumes input. -/
theorem askLoop_inv (param : String) (inst : Inst) :
    ∀ (fuel : Nat) (s : ShellState), EngInv s → ∀ res,
      askLoop param inst fuel s = some res → EngInv res.1 := by
  intro fuel
  induction fuel with
  | zero =>
      intro s h res hres
      cases hres
  | succ fuel ih =>
      intro s h res hres
      unfold askLoop at hres
      cases hin : s.input with
      | nil => rw [hin] at hres; cases hres
      | cons resp rest =>
          rw [hin] at hres
          dsimp only at hres
          have hmem : ∀ r ∈ rest, replyCfsOK r := by
            intro r hr
            apply h.2 r
            rw [hin]
            exact List.mem_cons_of_mem _ hr
          have hrest : EngInv { s with input := rest } := ⟨h.1, hmem⟩
          by_cases h0 : resp = ""
          · rw [if_pos h0] at hres
            exact ih _ hrest res hres
          · rw [if_neg h0] at hres
            by_cases h1 : resp = "unknown"
            · rw [if_pos h1] at hres
              injection hres with he
              subst he
              exact hrest
            · rw [if_neg h1] at hres
              by_cases h2 : resp = "help"
              · rw [if_pos h2] at hres
                exact ih _ (EngInv_writeLine _ _ hrest) res hres
              · rw [if_neg h2] at hres
                by_cases h3 : resp = "why"
                · rw [if_pos h3] at hres
                  cases hpw : printWhy param { s with input := rest } with
                  | none => rw [hpw] at hres; cases hres
                  | some s2 =>
                      rw [hpw] at hres
                      exact ih s2 (printWhy_inv param _ hrest s2 hpw) res hres
                · rw [if_neg h3] at hres
                  by_cases h4 : resp = "rule"
                  · rw [if_pos h4] at hres
                    exact ih _ (EngInv_writeLine _ _ hrest) res hres
                  · rw [if_neg h4] at hres
                    by_cases h5 : resp = "?"
                    · rw [if_pos h5] at hres
                      cases hts : (getParam { s with input := rest } param).typeString with
                      | none => rw [hts] at hres; cases hres
                      | some ts =>
                          rw [hts] at hres
                          dsimp only at hres
                          exact ih _ (EngInv_writeLine _ _ hrest) res hres
                    · rw [if_neg h5] at hres
                      cases hp : parseReply (getParam { s with input := rest } param) resp with
                      | none =>
                          rw [hp] at hres
                          exact ih _ (EngInv_writeLine _ _ hrest) res hres
                      | some pairs =>
                          rw [hp] at hres
                          dsimp only at hres
                          injection hres with he
                          subst he
                          refine ⟨StoreOK_foldUpdate pairs _ param inst ?_ h.1, hmem⟩
                          exact parseReply_cfs _ resp
                            (h.2 resp (by rw [hin]; exact List.mem_cons_self _ _)) pairs hp

/-- `ask_values` preserves the invariant. -/
theorem askValues_inv (fuel : Nat) (param : String) (inst : Inst) (s : ShellState)
    (h : EngInv s) (res : ShellState × Bool)
    (hres : askValues fuel param inst s = some res) : EngInv res.1 := by
  unfold askValues at hres
  by_cases ha : (param, inst) ∈ s.asked
  · rw [if_pos ha] at hres
    injection hres with he
    subst he
    exact h
  · rw [if_neg ha] at hres
    exact askLoop_inv param inst fuel
      { s with asked := sinsert (param, inst) s.asked } h res hres

/-- `find_out` preserves the invariant, by induction on the resolution
fuel: the recursive hook it hands to `use_rules` preserves it at the
smaller fuel. -/
theorem findOut_inv : ∀ (fuel : Nat) (param : String) (instOpt : Option Inst)
    (s : ShellState), EngInv s → ∀ res, findOut fuel param instOpt s = some res →
    EngInv res.1 := by
  intro fuel
  induction fuel with
  | zero =>
      intro param instOpt s h res hres
      cases hres
  | succ fuel ih =>
      intro param instOpt s h res hres
      unfold findOut at hres
      cases hri : resolveInst instOpt s with
      | none => rw [hri] at hres; cases hres
      | some inst =>
          rw [hri] at hres
          dsimp only at hres
          by_cases hk : (param, inst) ∈ s.known
          · rw [if_pos hk] at hres
            injection hres with he
            subst he
            exact h
          · rw [if_neg hk] at hres
            have hhook : OHookOK (some (fun p i t => findOut fuel p (some i) t)) := by
              intro p i t res1 ht1 hcall
              exact ih p (some i) t ht1 res1 hcall
            have htrack : OTrackOK (some (fun r t => setCurrentRule (CurRule.rul r) t)) := by
              intro r t
              exact ⟨rfl, rfl⟩
            by_cases haf : (getParam s param).askFirst = true
            · rw [if_pos haf] at hres
              cases hav : askValues fuel param inst s with
              | none => rw [hav] at hres; cases hres
              | some p1 =>
                  obtain ⟨sa, ba⟩ := p1
                  rw [hav] at hres
                  have h1 : EngInv sa := askValues_inv fuel param inst s h (sa, ba) hav
                  cases ba with
                  | true =>
                      dsimp only at hres
                      injection hres with he
                      subst he
                      exact h1
                  | false =>
                      dsimp only at hres
                      cases hur : useRules (some (fun p i t => findOut fuel p (some i) t))
                          (some (fun r t => setCurrentRule (CurRule.rul r) t))
                          (getRules sa param) sa with
                      | none => rw [hur] at hres; cases hres
                      | some p2 =>
                          obtain ⟨sb, bb⟩ := p2
                          rw [hur] at hres
                          have h2 : EngInv sb :=
                            useRules_inv _ hhook _ htrack (getRules sa param) sa h1 (sb, bb) hur
                          cases bb with
                          | true =>
                              dsimp only at hres
                              injection hres with he
                              subst he
                              exact h2
                          | false =>
                              dsimp only at hres
                              injection hres with he
                              subst he
                              exact h2
            · rw [if_neg haf] at hres
              cases hur : useRules (some (fun p i t => findOut fuel p (some i) t))
                  (some (fun r t => setCurrentRule (CurRule.rul r) t))
                  (getRules s param) s with
              | none => rw [hur] at hres; cases hres
              | some p2 =>
                  obtain ⟨sb, bb⟩ := p2
                  rw [hur] at hres
                  have h2 : EngInv sb :=
                    useRules_inv _ hhook _ htrack (getRules s param) s h (sb, bb) hur
                  cases bb with
                  | true =>
                      dsimp only at hres
                      injection hres with he
                      subst he
                      exact h2
                  | false =>
                      dsimp only at hres
                      cases hav : askValues fuel param inst sb with
                      | none => rw [hav] at hres; cases hres
                      | some p1 =>
                          obtain ⟨sa, ba⟩ := p1
                          rw [hav] at hres
                          have h1 : EngInv sa :=
                            askValues_inv fuel param inst sb h2 (sa, ba) hav
                          cases ba with
                          | true =>
                              dsimp only at hres
                              injection hres with he
                              subst he
                              exact h1
                          | false =>
                              dsimp only at hres
                              injection hres with he
                              subst he
                              exact h1

/-- The `find_out` loops of `execute` preserve the invariant. -/
theorem goParams_inv (fuel : Nat) (ps : List String) :
    ∀ s, EngInv s → ∀ s1, goParams fuel ps s = some s1 → EngInv s1 := by
  induction ps with
  | nil =>
      intro s h s1 hres
      injection hres with he
      subst he
      exact h
  | cons p ps ih =>
      intro s h s1 hres
      unfold goParams at hres
      cases hf : findOut fuel p none s with
      | none => rw [hf] at hres; cases hres
      | some pr =>
          obtain ⟨s2, b⟩ := pr
          rw [hf] at hres
          exact ih s2 (findOut_inv fuel p none s h (s2, b) hf) s1 hres

/-- The goal snapshot only inserts lazy empty entries into the store. -/
theorem snapshotGoals_entriesEq (goals : List String) (inst : Inst) (kv : Values) :
    entriesEq (snapshotGoals goals inst kv).1 kv := by
  unfold snapshotGoals
  generalize ([] : ResultMap) = acc
  induction goals generalizing kv acc with
  | nil => exact entriesEq.refl kv
  | cons g gs ih =>
      dsimp only [List.foldl]
      exact (ih _ _).trans (entriesEq_getVals kv g inst)

/-- Instantiating a context changes no stored CF and no pending input. -/
theorem instantiateShell_inv (name : String) (s : ShellState) (h : EngInv s)
    (s1 : ShellState) (hres : instantiateShell name s = some s1) : EngInv s1 := by
  unfold instantiateShell at hres
  cases hc : alookup s.contexts name with
  | none => rw [hc] at hres; cases hres
  | some c =>
      rw [hc] at hres
      dsimp only at hres
      injection hres with he
      subst he
      exact h

/-- The per-context loop of `execute` preserves the invariant. -/
theorem executeGo_inv (fuel : Nat) (names : List String) :
    ∀ s acc, EngInv s → ∀ res, executeGo fuel names s acc = some res → EngInv res.1 := by
  induction names with
  | nil =>
      intro s acc h res hres
      injection hres with he
      subst he
      exact h
  | cons name rest ih =>
      intro s acc h res hres
      unfold executeGo at hres
      cases hc : alookup s.contexts name with
      | none => rw [hc] at hres; cases hres
      | some ctx =>
          rw [hc] at hres
          dsimp only at hres
          cases hi : instantiateShell name s with
          | none => rw [hi] at hres; cases hres
          | some s1 =>
              rw [hi] at hres
              dsimp only at hres
              have h1 : EngInv s1 := instantiateShell_inv name s h s1 hi
              cases hg1 : goParams fuel ctx.initialData (setCurrentRule CurRule.initialS s1) with
              | none => rw [hg1] at hres; cases hres
              | some s3 =>
                  rw [hg1] at hres
                  dsimp only at hres
                  have h3 : EngInv s3 := goParams_inv fuel ctx.initialData
                    (setCurrentRule CurRule.initialS s1) h1 s3 hg1
                  cases hg2 : goParams fuel ctx.goals (setCurrentRule CurRule.goalS s3) with
                  | none => rw [hg2] at hres; cases hres
                  | some s5 =>
                      rw [hg2] at hres
                      dsimp only at hres
                      have h5 : EngInv s5 := goParams_inv fuel ctx.goals
                        (setCurrentRule CurRule.goalS s3) h3 s5 hg2
                      by_cases hge : ctx.goals.isEmpty = true
                      · rw [if_pos hge] at hres
                        exact ih s5 acc h5 res hres
                      · rw [if_neg hge] at hres
                        cases hci : s5.currentInst with
                        | none => rw [hci] at hres; cases hres
                        | some inst =>
                            rw [hci] at hres
                            dsimp only at hres
                            refine ih _ _ ?_ res hres
                            constructor
                            · exact StoreOK_entriesEq
                                (snapshotGoals_entriesEq ctx.goals inst s5.knownValues) h5.1
                            · exact h5.2

/-- C2 (amended): provided every certainty token in the port's responses
parses inside `[-1, 1]`, every certainty factor the engine ever stores —
through rule application and through interactive accumulation alike —
lies in `[-1, 1]`: both any `find_out` resolution step and any full
`execute` session end with an everywhere-bounded fact store.
(`parse_reply` itself does not enforce the bound; see the
counterexample.) -/
theorem C2_cf_invariant (fuel : Nat) (s : ShellState)
    (h1 : ∀ p i v, -1 ≤ valueCf s.knownValues p i v ∧ valueCf s.knownValues p i v ≤ 1)
    (h2 : ∀ r ∈ s.input, replyCfsOK r) :
    (∀ param instOpt res, findOut fuel param instOpt s = some res →
      ∀ p i v, -1 ≤ valueCf res.1.knownValues p i v ∧ valueCf res.1.knownValues p i v ≤ 1) ∧
    (∀ names p i v, resStoreBounded (execute fuel names s) p i v) := by
  constructor
  · intro param instOpt res hres p i v
    exact (findOut_inv fuel param instOpt s ⟨h1, h2⟩ res hres).1 p i v
  · intro names p i v res hres
    have hmem : execute fuel names s = some res := hres
    unfold execute at hmem
    have hinv : EngInv (clearShell (writeLine execBanner s)) := by
      constructor
      · intro q j w
        have hz : valueCf (clearShell (writeLine execBanner s)).knownValues q j w = 0 := rfl
        rw [hz]
        norm_num
      · exact h2
    exact (executeGo_inv fuel names _ [] hinv res hmem).1 p i v

/-- Witness for C2 on the Scenario 1 shell: the port's single response
`15` has no certainty tokens, and the session's stored CF for
`(y, (c,0), hi)` is bounded. -/
theorem C2_cf_invariant_witness :
    (∀ p i v, -1 ≤ valueCf s3.knownValues p i v ∧ valueCf s3.knownValues p i v ≤ 1) ∧
    (∀ r ∈ s3.input, replyCfsOK r) ∧
    resStoreBounded (execute 10 ["c"] s3) "y" ("c", 0) (PyVal.str "hi") := by
  have h1 : ∀ p i v, -1 ≤ valueCf s3.knownValues p i v ∧ valueCf s3.knownValues p i v ≤ 1 := by
    intro p i v
    have hz : valueCf s3.knownValues p i v = 0 := rfl
    rw [hz]
    norm_num
  have h2 : ∀ r ∈ s3.input, replyCfsOK r := by
    intro r hr
    have hin : s3.input = ["15"] := rfl
    rw [hin] at hr
    rcases List.mem_singleton.mp hr with rfl
    have hc : ("15".contains ',') = false := by with_unfolding_all decide
    simp [replyCfsOK, hc]
  exact ⟨h1, h2, (C2_cf_invariant 10 s3 h1 h2).2 ["c"] "y" ("c", 0) (PyVal.str "hi")⟩
